import Mathlib

/-!
Verification of the Damastes/Procrustes audio-album builder
(`src/damastes/shoot.py`, with `src/damastes/run.py` for the earlier
variant of the file-name decorator).

The development shallowly embeds the pure core of the program:
the natural-sort comparator, the initials formatter, the recursive
tree walk with its shared counter, the file-name decorator, the
destination-directory gate of `_album`, and the per-item copy step of
`_album_copy.file_copy`.  Python machine-level details are modelled
as follows: Python's arbitrary-precision integers are `Int`/`Nat`;
Python strings are `String`/`List Char` compared by code point;
Python's stable `sorted` with a comparator is modelled by a stable
insertion sort (`sort_by`), which produces the same permutation as
CPython's Timsort whenever the comparator is a total preorder; the
regex character class `\d` is modelled as the ASCII decimal digits and
`\s`/`str.strip` whitespace as the ASCII whitespace characters, the
repertoires exercised by the repository.
-/

namespace Damastes

/-! ## Natural comparator (shoot.py lines 29-77) -/

/-- Value of an ASCII digit character. -/
def digitVal (c : Char) : Nat := c.toNat - 48

/-- Helper of `str_strip_numbers`: scans characters, accumulating the
current maximal digit run (if any) in the second argument. -/
def stripNumsGo : List Char → Option Nat → List Nat
  | [], none => []
  | [], some n => [n]
  | c :: rest, cur =>
    if c.isDigit then stripNumsGo rest (some (10 * cur.getD 0 + digitVal c))
    else
      match cur with
      | some n => n :: stripNumsGo rest none
      | none => stripNumsGo rest none

/-- `str_strip_numbers` (shoot.py line 29): the vector of integers embedded
in a string, one per maximal run of decimal digits, parsed left to right
(so leading zeros are ignored). -/
def str_strip_numbers (s : String) : List Nat := stripNumsGo s.data none

/-- Lexicographic comparison of lists under a numeric key, with the
shorter list first on ties; this is Python's `<`-based comparison of
lists and strings alike ("string semantics"), as used by `strcmp_c`
(shoot.py line 43).  Returns -1, 0 or 1. -/
def strcmp_c_key (key : α → Nat) : List α → List α → Int
  | [], [] => 0
  | [], _ :: _ => -1
  | _ :: _, [] => 1
  | a :: s, b :: t =>
    if key a < key b then -1
    else if key b < key a then 1
    else strcmp_c_key key s t

/-- `strcmp_c` on lists of integers. -/
def strcmp_c_list : List Nat → List Nat → Int := strcmp_c_key id

/-- `strcmp_c` on character lists: Python compares strings
lexicographically by code point. -/
def strcmp_c_chars : List Char → List Char → Int := strcmp_c_key Char.toNat

/-- `strcmp_c` on strings. -/
def strcmp_c_str (x y : String) : Int := strcmp_c_chars x.data y.data

/-- `strcmp_naturally` (shoot.py line 59): if both strings embed digits,
compare the digit vectors with list semantics, otherwise compare the
full strings by code point. -/
def strcmp_naturally (x y : String) : Int :=
  let num_x := str_strip_numbers x
  let num_y := str_strip_numbers y
  if num_x ≠ [] ∧ num_y ≠ [] then strcmp_c_list num_x num_y
  else strcmp_c_str x y

theorem strcmp_c_key_anti (key : α → Nat) (s : List α) :
    ∀ t, strcmp_c_key key s t = -strcmp_c_key key t s := by
  induction s with
  | nil => intro t; cases t <;> simp [strcmp_c_key]
  | cons a s ih =>
    intro t
    cases t with
    | nil => simp [strcmp_c_key]
    | cons b t =>
      simp only [strcmp_c_key]
      split_ifs with h1 h2 <;> first | omega | exact ih t

theorem strcmp_c_key_self (key : α → Nat) (s : List α) : strcmp_c_key key s s = 0 := by
  induction s with
  | nil => rfl
  | cons a s ih => simp [strcmp_c_key, ih]

theorem strcmp_c_key_trans (key : α → Nat) (s : List α) :
    ∀ t u, strcmp_c_key key s t = -1 → strcmp_c_key key t u = -1 →
      strcmp_c_key key s u = -1 := by
  induction s with
  | nil =>
    intro t u h1 h2
    cases t with
    | nil => exact absurd h1 (by simp [strcmp_c_key])
    | cons b t =>
      cases u with
      | nil => exact absurd h2 (by simp [strcmp_c_key])
      | cons c u => simp [strcmp_c_key]
  | cons a s ih =>
    intro t u h1 h2
    cases t with
    | nil => exact absurd h1 (by simp [strcmp_c_key])
    | cons b t =>
      cases u with
      | nil => exact absurd h2 (by simp [strcmp_c_key])
      | cons c u =>
        simp only [strcmp_c_key] at h1 h2 ⊢
        split_ifs at h1 h2 ⊢ <;> first | omega | exact ih t u h1 h2

theorem strcmp_c_key_first_diff (key : α → Nat) (p : List α) :
    ∀ a b s t, key a < key b →
      strcmp_c_key key (p ++ a :: s) (p ++ b :: t) = -1 := by
  induction p with
  | nil =>
    intro a b s t h
    simp only [List.nil_append, strcmp_c_key, if_pos h]
  | cons x p ih =>
    intro a b s t h
    simp only [List.cons_append, strcmp_c_key, if_neg (lt_irrefl (key x))]
    exact ih a b s t h

theorem strcmp_c_key_proper_start (key : α → Nat) (p : List α) :
    ∀ d t, strcmp_c_key key p (p ++ d :: t) = -1 := by
  induction p with
  | nil => intro d t; simp [strcmp_c_key]
  | cons x p ih =>
    intro d t
    simp only [List.cons_append, strcmp_c_key, if_neg (lt_irrefl (key x))]
    exact ih d t

theorem stripNumsGo_no_digit (cs : List Char) (h : ∀ c ∈ cs, ¬ c.isDigit) :
    stripNumsGo cs none = [] := by
  induction cs with
  | nil => rfl
  | cons c rest ih =>
    have hc : ¬ c.isDigit = true := h c (by simp)
    simp only [stripNumsGo, if_neg hc]
    exact ih fun x hx => h x (by simp [hx])

/-- Claim C3: for strings that both embed digits, `strcmp_naturally`
compares the extracted integer sequences element-wise — the first
differing integer decides, leading zeros are ignored ("10" vs "010"
compare equal), and a sequence that is a proper front part of the
other sorts first; when either string contains no digits the result
is plain code-point comparison of the full strings. -/
theorem C3_natural_comparison :
    (∀ x y : String, str_strip_numbers x ≠ [] → str_strip_numbers y ≠ [] →
      strcmp_naturally x y = strcmp_c_list (str_strip_numbers x) (str_strip_numbers y))
    ∧ (∀ x y : String, ∀ p a b s t, str_strip_numbers x = p ++ a :: s →
      str_strip_numbers y = p ++ b :: t → a < b → strcmp_naturally x y = -1)
    ∧ (∀ x y : String, ∀ p d t, str_strip_numbers x = p →
      str_strip_numbers y = p ++ d :: t → p ≠ [] → strcmp_naturally x y = -1)
    ∧ strcmp_naturally "10" "010" = 0
    ∧ (∀ x y : String, ((∀ c ∈ x.data, ¬ c.isDigit) ∨ (∀ c ∈ y.data, ¬ c.isDigit)) →
      strcmp_naturally x y = strcmp_c_str x y) := by
  refine ⟨?_, ?_, ?_, by decide, ?_⟩
  · intro x y hx hy
    have hcond : str_strip_numbers x ≠ [] ∧ str_strip_numbers y ≠ [] := ⟨hx, hy⟩
    simp only [strcmp_naturally, if_pos hcond]
  · intro x y p a b s t hx hy hab
    have hx' : str_strip_numbers x ≠ [] := by simp [hx]
    have hy' : str_strip_numbers y ≠ [] := by simp [hy]
    have hcond : str_strip_numbers x ≠ [] ∧ str_strip_numbers y ≠ [] := ⟨hx', hy'⟩
    simp only [strcmp_naturally]
    rw [if_pos hcond, hx, hy]
    exact strcmp_c_key_first_diff id p a b s t hab
  · intro x y p d t hx hy hp
    have hx' : str_strip_numbers x ≠ [] := by simp [hx, hp]
    have hy' : str_strip_numbers y ≠ [] := by simp [hy]
    have hcond : str_strip_numbers x ≠ [] ∧ str_strip_numbers y ≠ [] := ⟨hx', hy'⟩
    simp only [strcmp_naturally]
    rw [if_pos hcond, hx, hy]
    exact strcmp_c_key_proper_start id p d t
  · intro x y h
    have h' : ¬ (str_strip_numbers x ≠ [] ∧ str_strip_numbers y ≠ []) := by
      rcases h with h | h
      · exact fun hc => hc.1 (stripNumsGo_no_digit x.data h)
      · exact fun hc => hc.2 (stripNumsGo_no_digit y.data h)
    simp only [strcmp_naturally, if_neg h']

/-- Witness for C3 at concrete inputs. -/
theorem C3_natural_comparison_witness :
    strcmp_naturally "2charlie" "10alfa" = -1 ∧ strcmp_naturally "charlie" "zulu" = -1 := by
  constructor
  · exact C3_natural_comparison.2.1 "2charlie" "10alfa" [] 2 10 [] [] (by decide) (by decide)
      (by decide)
  · have h := C3_natural_comparison.2.2.2.2 "charlie" "zulu" (Or.inl (by decide))
    rw [h]; decide

/-- Claim C4 (counterexample): `strcmp_naturally` is not transitive.
"a2" sorts before "az" (string comparison, since "az" has no digits),
"az" sorts before "b1" (string comparison), but "a2" sorts after "b1"
(digit-vector comparison, 2 > 1). -/
theorem C4_transitivity_counterexample :
    strcmp_naturally "a2" "az" = -1 ∧ strcmp_naturally "az" "b1" = -1 ∧
      strcmp_naturally "a2" "b1" = 1 := by decide

/-- Claim C4 (amended): `strcmp_naturally` is antisymmetric on all strings,
and transitive on any set of strings that all embed digits, as well as on
any set of strings none of which embeds digits; it is not transitive on
mixed sets. -/
theorem C4_antisymmetry_and_partial_transitivity :
    (∀ a b : String, strcmp_naturally a b = -strcmp_naturally b a)
    ∧ (∀ a b c : String, str_strip_numbers a ≠ [] → str_strip_numbers b ≠ [] →
      str_strip_numbers c ≠ [] → strcmp_naturally a b = -1 → strcmp_naturally b c = -1 →
      strcmp_naturally a c = -1)
    ∧ (∀ a b c : String, str_strip_numbers a = [] → str_strip_numbers b = [] →
      str_strip_numbers c = [] → strcmp_naturally a b = -1 → strcmp_naturally b c = -1 →
      strcmp_naturally a c = -1) := by
  refine ⟨?_, ?_, ?_⟩
  · intro a b
    simp only [strcmp_naturally]
    by_cases h : str_strip_numbers a ≠ [] ∧ str_strip_numbers b ≠ []
    · rw [if_pos h, if_pos (And.intro h.2 h.1)]
      exact strcmp_c_key_anti id _ _
    · have h' : ¬ (str_strip_numbers b ≠ [] ∧ str_strip_numbers a ≠ []) := by tauto
      rw [if_neg h, if_neg h']
      exact strcmp_c_key_anti Char.toNat _ _
  · intro a b c ha hb hc h1 h2
    simp only [strcmp_naturally] at h1 h2 ⊢
    rw [if_pos (And.intro ha hb)] at h1
    rw [if_pos (And.intro hb hc)] at h2
    rw [if_pos (And.intro ha hc)]
    exact strcmp_c_key_trans id _ _ _ h1 h2
  · intro a b c ha hb hc h1 h2
    simp only [strcmp_naturally] at h1 h2 ⊢
    rw [if_neg (show ¬ (str_strip_numbers a ≠ [] ∧ str_strip_numbers b ≠ []) by simp [ha])] at h1
    rw [if_neg (show ¬ (str_strip_numbers b ≠ [] ∧ str_strip_numbers c ≠ []) by simp [hb])] at h2
    rw [if_neg (show ¬ (str_strip_numbers a ≠ [] ∧ str_strip_numbers c ≠ []) by simp [ha])]
    exact strcmp_c_key_trans Char.toNat _ _ _ h1 h2

/-- Witness for the amended C4 at concrete inputs. -/
theorem C4_antisymmetry_witness :
    strcmp_naturally "2a" "10a" = -strcmp_naturally "10a" "2a" ∧
      strcmp_naturally "a1" "c3" = -1 := by
  constructor
  · exact C4_antisymmetry_and_partial_transitivity.1 "2a" "10a"
  · exact C4_antisymmetry_and_partial_transitivity.2.1 "a1" "b2" "c3" (by decide) (by decide)
      (by decide) (by decide) (by decide)

/-- Claim C5 (counterexample): two distinct strings with equal digit
vectors DO compare as equal — there is no original-string tie-break. -/
theorem C5_tiebreak_counterexample :
    strcmp_naturally "a1" "b1" = 0 ∧ "a1" ≠ "b1" := by decide

/-- Claim C5 (amended): the ordering key of a string that embeds digits
is its integer sequence alone.  When both strings embed digits and their
integer sequences are equal the comparator returns EQ without consulting
the original strings; the original strings decide the comparison only
when at least one side embeds no digits. -/
theorem C5_key_semantics :
    (∀ x y : String, str_strip_numbers x ≠ [] → str_strip_numbers y ≠ [] →
      str_strip_numbers x = str_strip_numbers y → strcmp_naturally x y = 0)
    ∧ (∀ x y : String, (str_strip_numbers x = [] ∨ str_strip_numbers y = []) →
      strcmp_naturally x y = strcmp_c_str x y) := by
  constructor
  · intro x y hx hy heq
    simp only [strcmp_naturally]
    rw [if_pos (And.intro hx hy), heq]
    exact strcmp_c_key_self id _
  · intro x y h
    have h' : ¬ (str_strip_numbers x ≠ [] ∧ str_strip_numbers y ≠ []) := by tauto
    simp only [strcmp_naturally]
    rw [if_neg h']

/-- Witness for the amended C5 at concrete inputs. -/
theorem C5_key_semantics_witness :
    strcmp_naturally "ab11cdd2k.144" "z11-2...144" = 0 ∧
      strcmp_naturally "alfa" "bravo" = strcmp_c_str "alfa" "bravo" := by
  constructor
  · exact C5_key_semantics.1 "ab11cdd2k.144" "z11-2...144" (by decide) (by decide) (by decide)
  · exact C5_key_semantics.2 "alfa" "bravo" (Or.inl (by decide))

/-! ## Initials formatter (shoot.py lines 468-566) -/

/-- The double-quote character. -/
def dQuote : Char := Char.ofNat 34

/-- The apostrophe character. -/
def apos : Char := Char.ofNat 39

/-- The backslash character. -/
def bslash : Char := Char.ofNat 92

/-- Python whitespace, as stripped by `str.strip()` and matched by the
regex class `\s` (ASCII repertoire). -/
def isPySpace (c : Char) : Bool :=
  c = ' ' || c = Char.ofNat 9 || c = Char.ofNat 10 || c = Char.ofNat 13 ||
    c = Char.ofNat 11 || c = Char.ofNat 12

/-- Lower-case letter test for `str.islower()`, covering the ASCII and
Cyrillic repertoires exercised by the repository. -/
def isPyLower (c : Char) : Bool :=
  ('a' ≤ c && c ≤ 'z') || (Char.ofNat 0x430 ≤ c && c ≤ Char.ofNat 0x44F) ||
    c = Char.ofNat 0x451

/-- Upper-case letter test for `str.isupper()`, covering the ASCII and
Cyrillic repertoires exercised by the repository. -/
def isPyUpper (c : Char) : Bool :=
  ('A' ≤ c && c ≤ 'Z') || (Char.ofNat 0x410 ≤ c && c ≤ Char.ofNat 0x42F) ||
    c = Char.ofNat 0x401

/-- `str.upper()` on one character, covering the ASCII and Cyrillic
repertoires exercised by the repository. -/
def pyToUpper (c : Char) : Char :=
  if 'a' ≤ c && c ≤ 'z' then Char.ofNat (c.toNat - 32)
  else if Char.ofNat 0x430 ≤ c && c ≤ Char.ofNat 0x44F then Char.ofNat (c.toNat - 32)
  else if c = Char.ofNat 0x451 then Char.ofNat 0x401
  else c

/-- Python `str.split(sep)` for a one-character separator: splits at every
occurrence, keeping empty segments. -/
def pySplitChar (sep : Char) : List Char → List (List Char)
  | [] => [[]]
  | c :: rest =>
    if c = sep then [] :: pySplitChar sep rest
    else
      match pySplitChar sep rest with
      | [] => [[c]]
      | g :: gs => (c :: g) :: gs

/-- Python `str.strip()`: removes leading and trailing whitespace. -/
def pyStrip (cs : List Char) : List Char :=
  ((cs.dropWhile isPySpace).reverse.dropWhile isPySpace).reverse

/-- Splitting on maximal runs of separator-class characters and dropping
empty segments, the composition `[x for x in re.split(r"[cls]+", s) if x]`
used by `initials`. `tokenizeGo` carries the (reversed) current token. -/
def tokenizeGo (p : Char → Bool) : List Char → List Char → List (List Char)
  | [], cur => if cur.isEmpty then [] else [cur.reverse]
  | c :: rest, cur =>
    if p c then
      if cur.isEmpty then tokenizeGo p rest []
      else cur.reverse :: tokenizeGo p rest []
    else tokenizeGo p rest (c :: cur)

/-- Maximal runs of characters outside the class `p`. -/
def tokenize (p : Char → Bool) (cs : List Char) : List (List Char) :=
  tokenizeGo p cs []

/-- Scanner behind the regex `"(?:\\.|[^"\\])*"`: looks for the closing
quote of a quoted substring, skipping backslash-escaped characters.
Returns the remainder after the closing quote, or `none` when the
attempt fails (unterminated). -/
def findClose (cs : List Char) : Option (List Char) :=
  match cs with
  | [] => none
  | c :: rest =>
    if c = dQuote then some rest
    else if c = bslash then
      match rest with
      | [] => none
      | _ :: rest2 => findClose rest2
    else findClose rest

/-- One fuelled step of `RE_QUOTED_SUBSTRING.sub(" ", s)` (shoot.py line
566): each successfully matched double-quoted substring is replaced by a
single space; a quote whose match attempt fails is kept and the search
resumes after it, as the regex engine does.  The fuel only bounds the
number of scanned characters; `removeQuoted` supplies enough. -/
def removeQuotedGo : Nat → List Char → List Char
  | 0, cs => cs
  | _ + 1, [] => []
  | fuel + 1, c :: rest =>
    if c = dQuote then
      match findClose rest with
      | some rest2 => ' ' :: removeQuotedGo fuel rest2
      | none => c :: removeQuotedGo fuel rest
    else c :: removeQuotedGo fuel rest

/-- `RE_QUOTED_SUBSTRING.sub(" ", s)`: removes double-quoted substrings,
replacing each by one space. -/
def removeQuoted (cs : List Char) : List Char := removeQuotedGo cs.length cs

/-- The fixed table of lower-case name particles recognised by
`form_initial` (shoot.py lines 501-543). -/
def particles : List String :=
  ["von", "фон", "van", "ван", "der", "дер", "til", "тиль", "zu", "цу",
   "zum", "цум", "zur", "цур", "af", "аф", "of", "из", "da", "да",
   "de", "де", "des", "дез", "del", "дель", "di", "ди", "dos", "душ",
   "дос", "du", "дю", "la", "ла", "ля", "le", "ле", "haut", "от", "the"]

/-- The honorific `match` arms of `form_initial` (shoot.py lines 487-493),
tried only when the name has more than one character. -/
def honorific (name : String) : Option String :=
  if name = "Старший" then some "Ст"
  else if name = "Младший" then some "Мл"
  else if name = "Ст" || name = "ст" || name = "Sr" || name = "Мл" ||
      name = "мл" || name = "Jr" then some name
  else none

/-- The capitalisation-prefix loop of `form_initial` (shoot.py lines
495-499): extends the prefix character by character and stops at the
first upper-case letter, which is included; `none` when no upper-case
letter occurs in the scanned part. -/
def upperScan (pre : List Char) : List Char → Option (List Char)
  | [] => none
  | c :: rest => if isPyUpper c then some (pre ++ [c]) else upperScan (pre ++ [c]) rest

/-- The part of `form_initial` reached when the apostrophe branch does
not fire: honorifics and capitalisation prefixes (only for names longer
than one character), then the particle table, then the upper-cased first
character.  The empty case is unreachable (tokens are nonempty). -/
def formPlain (name : List Char) : List Char :=
  let scanned : Option (List Char) :=
    if 1 < name.length then
      match honorific (String.mk name) with
      | some r => some r.data
      | none =>
        match name with
        | n0 :: rest => upperScan [n0] rest
        | [] => none
    else none
  match scanned with
  | some r => r
  | none =>
    if String.mk name ∈ particles then name.take 1
    else
      match name with
      | c :: _ => [pyToUpper c]
      | [] => []

/-- `form_initial` (shoot.py lines 480-545): one initial for one name
part.  The apostrophe branch fires when the name contains an apostrophe
with nonempty text after it. -/
def form_initial (name : List Char) : List Char :=
  match pySplitChar apos name with
  | c0 :: (ch1 :: _) :: _ =>
    match c0 with
    | d0 :: _ => if isPyLower ch1 then [pyToUpper d0] else c0 ++ [apos, ch1]
    | [] => [apos, ch1]
  | _ => formPlain name

/-- Separator class of `RE_BY_SEP` (`[\s.]+`). -/
def isSepClass (c : Char) : Bool := isPySpace c || c = '.'

/-- `initials` (shoot.py lines 468-558): reduces an author list to
dotted initials.  Quoted nicknames are removed first, remaining quote
characters become spaces, authors are comma-separated, barrels
hyphen-separated, name parts separated by whitespace/dot runs. -/
def initials (authors : String) : String :=
  let cleaned := (removeQuoted authors.data).map (fun c => if c = dQuote then ' ' else c)
  let authorKeep := fun (a : List Char) =>
    !(pyStrip (a.filter (fun c => !(c = '.' || c = '-')))).isEmpty
  let barrelKeep := fun (b : List Char) =>
    !(pyStrip (b.filter (fun c => !(c = '.')))).isEmpty
  let renderBarrel := fun (b : List Char) =>
    List.intercalate ['.'] ((tokenize isSepClass b).map form_initial)
  let renderAuthor := fun (a : List Char) =>
    List.intercalate ['-'] (((pySplitChar '-' a).filter barrelKeep).map renderBarrel) ++ ['.']
  String.mk
    (List.intercalate [','] (((pySplitChar ',' cleaned).filter authorKeep).map renderAuthor))

/-- Claim C6: `initials` removes double-quoted nicknames entirely, even
with commas inside; an odd unpairable quote is not removed (its text
still contributes); lower-case particles yield their first character and
an apostrophe followed by an upper-case letter is kept as a unit. -/
theorem C6_initials_nicknames_particles :
    initials "Harry \"Bing\" Crosby, Kris \"Tanto\" Paronto" = "H.C.,K.P."
    ∧ initials "Charles de Batz de Castelmore d'Artagnan" = "C.d.B.d.C.d'A."
    ∧ initials "Harry \"Bing, Bang\" Crosby" = "H.C."
    ∧ initials "William J. \"Wild Bill\" Donovan, Marta \"Cinta Gonzalez" = "W.J.D.,M.C.G." := by
  refine ⟨?_, ?_, ?_, ?_⟩ <;> decide

/-- Claim C7: concrete behaviour of `initials` on plain, hyphenated and
empty inputs. -/
theorem C7_initials_basic :
    initials "John ronald reuel Tolkien" = "J.R.R.T."
    ∧ initials "Apsley Cherry-Garrard" = "A.C-G."
    ∧ initials "" = ""
    ∧ initials " " = "" := by
  refine ⟨?_, ?_, ?_, ?_⟩ <;> decide

/-! ## Tree walker (shoot.py lines 80-99, 155-174, 177-225, 274-302) -/

/-- Index of the last occurrence of a character, scanning with base
index `i`; models `str.rfind`. -/
def lastIdxGo (c : Char) : List Char → Nat → Option Nat
  | [], _ => none
  | x :: rest, i =>
    match lastIdxGo c rest (i + 1) with
    | some j => some j
    | none => if x = c then some i else none

/-- `pathlib.PurePath.stem`: the name without its final suffix; a dot
at position 0 or at the very end does not start a suffix. -/
def pyStem (s : String) : String :=
  let cs := s.data
  match lastIdxGo '.' cs 0 with
  | some i => if 0 < i ∧ i < cs.length - 1 then String.mk (cs.take i) else s
  | none => s

/-- `pathlib.PurePath.suffix`: the final extension including its dot,
or the empty string. -/
def pySuffix (s : String) : String :=
  let cs := s.data
  match lastIdxGo '.' cs 0 with
  | some i => if 0 < i ∧ i < cs.length - 1 then String.mk (cs.drop i) else ""
  | none => ""

/-- `_path_compare` (shoot.py line 80): full names, lexicographic when
`sort_lex` is set, natural otherwise. -/
def path_compare (lex : Bool) (x y : String) : Int :=
  if lex then strcmp_c_str x y else strcmp_naturally x y

/-- `_file_compare` (shoot.py line 91): stems only, lexicographic when
`sort_lex` is set, natural otherwise. -/
def file_compare (lex : Bool) (x y : String) : Int :=
  if lex then strcmp_c_str (pyStem x) (pyStem y)
  else strcmp_naturally (pyStem x) (pyStem y)

/-- A source tree: a directory holds named subdirectories and the names
of its recognised audio files (non-audio files are excluded from the
walk and the count by `_is_audiofile`, so they do not appear). -/
inductive FTree where
  | node : List (String × FTree) → List String → FTree

mutual
def fileCount : FTree → Nat
  | .node dirs files => forestCount dirs + files.length
def forestCount : List (String × FTree) → Nat
  | [] => 0
  | (_, t) :: rest => fileCount t + forestCount rest
end

/-- Stable insertion into a sorted list: the new element goes after
every element that strictly precedes it under `cmp`, hence after equal
elements already present. -/
def insert_sorted (cmp : α → α → Int) (a : α) : List α → List α
  | [] => [a]
  | b :: t => if cmp b a < 0 then b :: insert_sorted cmp a t else a :: b :: t

/-- Stable sort by a comparator.  Models Python's `sorted` with
`functools.cmp_to_key`: for a comparator that is a total preorder this
produces the same permutation as CPython's stable Timsort. -/
def sort_by (cmp : α → α → Int) : List α → List α
  | [] => []
  | a :: t => insert_sorted cmp a (sort_by cmp t)

theorem insert_sorted_perm (cmp : α → α → Int) (a : α) (l : List α) :
    (insert_sorted cmp a l).Perm (a :: l) := by
  induction l with
  | nil => simp [insert_sorted]
  | cons b t ih =>
    simp only [insert_sorted]
    split
    · exact (ih.cons b).trans (List.Perm.swap a b t)
    · exact List.Perm.refl _

theorem sort_by_perm (cmp : α → α → Int) (l : List α) : (sort_by cmp l).Perm l := by
  induction l with
  | nil => exact List.Perm.refl _
  | cons a t ih => exact (insert_sorted_perm cmp a (sort_by cmp t)).trans (ih.cons a)

theorem sort_by_sizeOf [SizeOf α] (cmp : α → α → Int) (l : List α) :
    sizeOf (sort_by cmp l) = sizeOf l :=
  (sort_by_perm cmp l).sizeOf_eq_sizeOf

/-- A walk item `(index, step_down, source file name)` as yielded by
`_dir_walk`. -/
abbrev Item := Int × List String × String

/-- Comparator applied to sibling directories by `_dir_walk` (shoot.py
lines 192-199): `_path_compare` on the entry names, flipped in reverse
mode (`lambda xp, yp: _path_compare(yp, xp)`). -/
def dirCmp (rev lex : Bool) (p q : String × FTree) : Int :=
  if rev then path_compare lex q.1 p.1 else path_compare lex p.1 q.1

/-- Comparator applied to sibling audio files by `_dir_walk` (shoot.py
lines 200-207): `_file_compare`, flipped in reverse mode. -/
def fileCmp (rev lex : Bool) (x y : String) : Int :=
  if rev then file_compare lex y x else file_compare lex x y

/-- `walk_along` (shoot.py lines 215-218): yields one item per file,
assigning the current counter value and then stepping it by `inc`
(`fcount[0] += fcount[1]`).  Returns the items and the final counter. -/
def walk_along (files : List String) (step : List String) (c inc : Int) :
    List Item × Int :=
  match files with
  | [] => ([], c)
  | f :: rest =>
    let r := walk_along rest step (c + inc) inc
    ((c, step, f) :: r.1, r.2)

mutual
/-- `_dir_walk` (shoot.py lines 177-225) on a directory: partitions the
children, sorts each partition with the (possibly flipped) comparator,
and in reverse mode yields this level's files before recursing into the
subdirectories, otherwise recurses first.  The mutable `fcount` cell is
threaded as the explicit counter `c` with step `inc`.  The degenerate
branch for a source that is itself a single audio file (lines 186-189)
is not modelled: all claims walk a directory tree. -/
def dir_walk (rev lex : Bool) (t : FTree) (step : List String) (c inc : Int) :
    List Item × Int :=
  match t with
  | .node dirs files =>
    let sdirs := sort_by (dirCmp rev lex) dirs
    let sfiles := sort_by (fileCmp rev lex) files
    if rev then
      let r1 := walk_along sfiles step c inc
      let r2 := walk_into rev lex sdirs step r1.2 inc
      (r1.1 ++ r2.1, r2.2)
    else
      let r1 := walk_into rev lex sdirs step c inc
      let r2 := walk_along sfiles step r1.2 inc
      (r1.1 ++ r2.1, r2.2)
termination_by sizeOf t
decreasing_by
  all_goals first
    | (simp only [sort_by_sizeOf, FTree.node.sizeOf_spec]; omega)
    | simp
    | omega

/-- `walk_into` (shoot.py lines 209-213): recurses into each named
subdirectory in order, appending the directory name to `step_down`. -/
def walk_into (rev lex : Bool) (ds : List (String × FTree)) (step : List String)
    (c inc : Int) : List Item × Int :=
  match ds with
  | [] => ([], c)
  | (nm, sub) :: rest =>
    let r1 := dir_walk rev lex sub (step ++ [nm]) c inc
    let r2 := walk_into rev lex rest step r1.2 inc
    (r1.1 ++ r2.1, r2.2)
termination_by sizeOf ds
decreasing_by
  all_goals first | (simp; omega) | simp | omega
end

/-- `_album` (shoot.py line 302): the full walk, counter starting at 1
with step +1 forward, or at the total file count with step -1 in
reverse mode (`[_FILES_TOTAL, -1] if _ARGS.reverse else [1, 1]`). -/
def albumWalk (rev lex : Bool) (t : FTree) : List Item :=
  (dir_walk rev lex t []
    (if rev then (fileCount t : Int) else 1) (if rev then -1 else 1)).1

mutual
/-- Modelled from the spec (§4.3 item 3): the visitation order as the
spec words it — at each level both partitions sorted by the active
comparator; in non-reverse mode all subdirectories are visited
(recursively) before this level's files, in reverse mode this level's
files come before the subdirectories.  Pure order, no counter. -/
def specOrder (rev lex : Bool) (t : FTree) (step : List String) :
    List (List String × String) :=
  match t with
  | .node dirs files =>
    let sdirs := sort_by (dirCmp rev lex) dirs
    let sfiles := (sort_by (fileCmp rev lex) files).map (fun f => (step, f))
    if rev then sfiles ++ specOrderForest rev lex sdirs step
    else specOrderForest rev lex sdirs step ++ sfiles
termination_by sizeOf t
decreasing_by
  all_goals first
    | (simp only [sort_by_sizeOf, FTree.node.sizeOf_spec]; omega)
    | simp
    | omega

/-- Modelled from the spec: visitation order over a list of named
subdirectories. -/
def specOrderForest (rev lex : Bool) (ds : List (String × FTree)) (step : List String) :
    List (List String × String) :=
  match ds with
  | [] => []
  | (nm, sub) :: rest =>
    specOrder rev lex sub (step ++ [nm]) ++ specOrderForest rev lex rest step
termination_by sizeOf ds
decreasing_by
  all_goals first | (simp; omega) | simp | omega
end

/-- The index sequence emitted by a walk of `n` files starting at `c`
with step `inc`. -/
def idxList (c inc : Int) (n : Nat) : List Int :=
  (List.range n).map (fun k : Nat => c + inc * (k : Int))

theorem idxList_succ (c inc : Int) (n : Nat) :
    idxList c inc (n + 1) = c :: idxList (c + inc) inc n := by
  simp only [idxList, List.range_succ_eq_map, List.map_cons, List.map_map]
  congr 1
  · push_cast; ring
  · apply List.map_congr_left
    intro k _
    simp only [Function.comp_apply]
    push_cast
    ring

theorem walk_along_snd (step : List String) (inc : Int) (files : List String) :
    ∀ c, (walk_along files step c inc).2 = c + inc * files.length := by
  induction files with
  | nil => intro c; simp [walk_along]
  | cons f rest ih =>
    intro c
    simp only [walk_along, ih (c + inc), List.length_cons]
    push_cast
    ring

theorem walk_along_map_fst (step : List String) (inc : Int) (files : List String) :
    ∀ c, (walk_along files step c inc).1.map Prod.fst = idxList c inc files.length := by
  induction files with
  | nil => intro c; simp [walk_along, idxList]
  | cons f rest ih =>
    intro c
    simp only [walk_along, List.map_cons, ih (c + inc), List.length_cons, idxList_succ]

theorem walk_along_map_snd (step : List String) (c inc : Int) (files : List String) :
    (walk_along files step c inc).1.map Prod.snd = files.map (fun f => (step, f)) := by
  induction files generalizing c with
  | nil => simp [walk_along]
  | cons f rest ih => simp [walk_along, ih]

theorem forestCount_perm {ds es : List (String × FTree)} (h : ds.Perm es) :
    forestCount ds = forestCount es := by
  have hc : ∀ fs : List (String × FTree),
      forestCount fs = (fs.map (fun p => fileCount p.2)).sum := by
    intro fs
    induction fs with
    | nil => rfl
    | cons p rest ih => cases p; simp [forestCount, ih]
  rw [hc, hc, (h.map (fun p => fileCount p.2)).sum_eq]

/-- Strong induction over the nested tree type: to prove a property of
every tree it suffices to prove it for a node given it for all children. -/
theorem treeInduction (P : FTree → Prop)
    (h : ∀ dirs files, (∀ p ∈ dirs, P p.2) → P (FTree.node dirs files)) : ∀ t, P t := by
  have key : ∀ n (t : FTree), sizeOf t ≤ n → P t := by
    intro n
    induction n with
    | zero =>
      intro t hle
      cases t with
      | node dirs files => simp only [FTree.node.sizeOf_spec] at hle; omega
    | succ n ihn =>
      intro t hle
      cases t with
      | node dirs files =>
        apply h
        intro p hp
        apply ihn
        have h1 := List.sizeOf_lt_of_mem hp
        have h2 : sizeOf p.2 < sizeOf p := by
          cases p with
          | mk a b => simp only [Prod.mk.sizeOf_spec]; omega
        simp only [FTree.node.sizeOf_spec] at hle
        omega
  intro t
  exact key (sizeOf t) t le_rfl

theorem mem_sort_by {a : α} {l : List α} (cmp : α → α → Int) (h : a ∈ sort_by cmp l) :
    a ∈ l := ((sort_by_perm cmp l).mem_iff).1 h

theorem walk_into_snd (rev lex : Bool) (ds : List (String × FTree))
    (ih : ∀ p ∈ ds, ∀ (step : List String) (c inc : Int),
      (dir_walk rev lex p.2 step c inc).2 = c + inc * fileCount p.2) :
    ∀ (step : List String) (c inc : Int),
      (walk_into rev lex ds step c inc).2 = c + inc * forestCount ds := by
  induction ds with
  | nil => intro step c inc; rw [walk_into]; simp [forestCount]
  | cons p rest ihr =>
    intro step c inc
    cases p with
    | mk nm sub =>
      rw [walk_into]
      simp only
      rw [ihr (fun q hq => ih q (List.mem_cons_of_mem _ hq)),
        ih (nm, sub) (List.mem_cons_self (nm, sub) rest)]
      simp only [forestCount]
      push_cast
      ring

/-- Counter lemma: a walk from counter `c` with step `inc` finishes at
`c + inc * (number of files in the tree)`, in both directions. -/
theorem dir_walk_snd (rev lex : Bool) : ∀ (t : FTree) (step : List String) (c inc : Int),
    (dir_walk rev lex t step c inc).2 = c + inc * fileCount t := by
  apply treeInduction (fun t => ∀ (step : List String) (c inc : Int),
    (dir_walk rev lex t step c inc).2 = c + inc * fileCount t)
  intro dirs files ih step c inc
  have ih' : ∀ p ∈ sort_by (dirCmp rev lex) dirs, ∀ (step : List String) (c inc : Int),
      (dir_walk rev lex p.2 step c inc).2 = c + inc * fileCount p.2 :=
    fun p hp => ih p (mem_sort_by _ hp)
  have hfc : forestCount (sort_by (dirCmp rev lex) dirs) = forestCount dirs :=
    forestCount_perm (sort_by_perm _ dirs)
  have hlen : (sort_by (fileCmp rev lex) files).length = files.length :=
    (sort_by_perm _ files).length_eq
  rw [dir_walk]
  cases rev with
  | true =>
    simp only [if_pos rfl]
    rw [walk_into_snd true lex _ ih', walk_along_snd, hfc, hlen]
    simp only [fileCount]
    push_cast
    ring
  | false =>
    simp only [Bool.false_eq_true, if_false]
    rw [walk_along_snd, walk_into_snd false lex _ ih', hfc, hlen]
    simp only [fileCount]
    push_cast
    ring

theorem idxList_append (c inc : Int) (m n : Nat) :
    idxList c inc (m + n) = idxList c inc m ++ idxList (c + inc * m) inc n := by
  simp only [idxList, List.range_add, List.map_append, List.map_map]
  congr 1
  apply List.map_congr_left
  intro k _
  simp only [Function.comp_apply]
  push_cast
  ring

theorem walk_into_snd_all (rev lex : Bool) (ds : List (String × FTree)) :
    ∀ (step : List String) (c inc : Int),
      (walk_into rev lex ds step c inc).2 = c + inc * forestCount ds :=
  walk_into_snd rev lex ds (fun p _ => dir_walk_snd rev lex p.2)

theorem walk_into_map_fst (rev lex : Bool) (ds : List (String × FTree))
    (ih : ∀ p ∈ ds, ∀ (step : List String) (c inc : Int),
      (dir_walk rev lex p.2 step c inc).1.map Prod.fst = idxList c inc (fileCount p.2)) :
    ∀ (step : List String) (c inc : Int),
      (walk_into rev lex ds step c inc).1.map Prod.fst = idxList c inc (forestCount ds) := by
  induction ds with
  | nil => intro step c inc; rw [walk_into]; simp [idxList, forestCount]
  | cons p rest ihr =>
    intro step c inc
    cases p with
    | mk nm sub =>
      rw [walk_into]
      simp only [List.map_append]
      rw [ih (nm, sub) (List.mem_cons_self (nm, sub) rest),
        ihr (fun q hq => ih q (List.mem_cons_of_mem _ hq)),
        dir_walk_snd]
      simp only [forestCount]
      rw [idxList_append]

/-- Index lemma: any walk from counter `c` with step `inc` emits the
index sequence `c, c+inc, c+2*inc, ...`, one index per file, in
emission order — in both directions. -/
theorem dir_walk_map_fst (rev lex : Bool) :
    ∀ (t : FTree) (step : List String) (c inc : Int),
      (dir_walk rev lex t step c inc).1.map Prod.fst = idxList c inc (fileCount t) := by
  apply treeInduction (fun t => ∀ (step : List String) (c inc : Int),
    (dir_walk rev lex t step c inc).1.map Prod.fst = idxList c inc (fileCount t))
  intro dirs files ih step c inc
  have ih' := fun p hp => ih p (mem_sort_by (dirCmp rev lex) hp)
  have hfc : forestCount (sort_by (dirCmp rev lex) dirs) = forestCount dirs :=
    forestCount_perm (sort_by_perm _ dirs)
  have hlen : (sort_by (fileCmp rev lex) files).length = files.length :=
    (sort_by_perm _ files).length_eq
  rw [dir_walk]
  cases rev with
  | true =>
    simp only [reduceIte, List.map_append]
    rw [walk_along_map_fst, walk_into_map_fst true lex _ ih', walk_along_snd, hfc, hlen]
    simp only [fileCount]
    rw [Nat.add_comm (forestCount dirs) files.length, idxList_append]
  | false =>
    simp only [Bool.false_eq_true, if_false, List.map_append]
    rw [walk_into_map_fst false lex _ ih', walk_along_map_fst, walk_into_snd_all, hfc, hlen]
    simp only [fileCount]
    rw [idxList_append]

theorem walk_into_map_snd (rev lex : Bool) (ds : List (String × FTree))
    (ih : ∀ p ∈ ds, ∀ (step : List String) (c inc : Int),
      (dir_walk rev lex p.2 step c inc).1.map Prod.snd = specOrder rev lex p.2 step) :
    ∀ (step : List String) (c inc : Int),
      (walk_into rev lex ds step c inc).1.map Prod.snd = specOrderForest rev lex ds step := by
  induction ds with
  | nil => intro step c inc; rw [walk_into, specOrderForest]; simp
  | cons p rest ihr =>
    intro step c inc
    cases p with
    | mk nm sub =>
      rw [walk_into, specOrderForest]
      simp only [List.map_append]
      rw [ih (nm, sub) (List.mem_cons_self (nm, sub) rest),
        ihr (fun q hq => ih q (List.mem_cons_of_mem _ hq))]

/-- Projection lemma: stripping the indices, any walk emits exactly the
spec-side visitation order (which carries no counter). -/
theorem dir_walk_map_snd (rev lex : Bool) :
    ∀ (t : FTree) (step : List String) (c inc : Int),
      (dir_walk rev lex t step c inc).1.map Prod.snd = specOrder rev lex t step := by
  apply treeInduction (fun t => ∀ (step : List String) (c inc : Int),
    (dir_walk rev lex t step c inc).1.map Prod.snd = specOrder rev lex t step)
  intro dirs files ih step c inc
  have ih' := fun p hp => ih p (mem_sort_by (dirCmp rev lex) hp)
  rw [dir_walk, specOrder]
  cases rev with
  | true =>
    simp only [reduceIte, List.map_append]
    rw [walk_along_map_snd, walk_into_map_snd true lex _ ih']
  | false =>
    simp only [Bool.false_eq_true, if_false, List.map_append]
    rw [walk_along_map_snd, walk_into_map_snd false lex _ ih']

/-- Claim C1: a forward-mode walk (counter started at 1, step +1) over a
tree of N audio files emits indices 1, 2, ..., N in emission order (so
each of 1..N exactly once), and its emission order — subdirectories
recursively before the directory's own files, both partitions sorted by
the natural comparator — is exactly the spec-side visitation order. -/
theorem C1_forward_walk (t : FTree) :
    (albumWalk false false t).map Prod.fst = idxList 1 1 (fileCount t)
    ∧ (albumWalk false false t).map Prod.snd = specOrder false false t [] := by
  constructor
  · rw [albumWalk]
    simp only [Bool.false_eq_true, if_false]
    exact dir_walk_map_fst false false t [] 1 1
  · rw [albumWalk]
    simp only [Bool.false_eq_true, if_false]
    exact dir_walk_map_snd false false t [] 1 1

/-! ## Sorting theory: the flipped comparator reverses a strictly,
transitively ordered sibling list -/

theorem strcmp_naturally_anti (a b : String) :
    strcmp_naturally a b = -strcmp_naturally b a := by
  simp only [strcmp_naturally]
  by_cases h : str_strip_numbers a ≠ [] ∧ str_strip_numbers b ≠ []
  · rw [if_pos h, if_pos (And.intro h.2 h.1)]
    exact strcmp_c_key_anti id _ _
  · have h' : ¬ (str_strip_numbers b ≠ [] ∧ str_strip_numbers a ≠ []) := by tauto
    rw [if_neg h, if_neg h']
    exact strcmp_c_key_anti Char.toNat _ _

theorem path_compare_anti (lex : Bool) (x y : String) :
    path_compare lex x y = -path_compare lex y x := by
  cases lex with
  | true => exact strcmp_c_key_anti Char.toNat _ _
  | false => exact strcmp_naturally_anti x y

theorem file_compare_anti (lex : Bool) (x y : String) :
    file_compare lex x y = -file_compare lex y x := by
  cases lex with
  | true => exact strcmp_c_key_anti Char.toNat _ _
  | false => exact strcmp_naturally_anti _ _

theorem dirCmp_false_anti (lex : Bool) (p q : String × FTree) :
    dirCmp false lex p q = -dirCmp false lex q p := path_compare_anti lex p.1 q.1

theorem fileCmp_false_anti (lex : Bool) (x y : String) :
    fileCmp false lex x y = -fileCmp false lex y x := file_compare_anti lex x y

theorem dirCmp_true_flip (lex : Bool) :
    dirCmp true lex = fun p q => dirCmp false lex q p := rfl

theorem fileCmp_true_flip (lex : Bool) :
    fileCmp true lex = fun x y => fileCmp false lex y x := rfl

/-- Local transitivity of the non-strict order induced by a comparator,
restricted to the members of a list. -/
def LeTransOn (cmp : α → α → Int) (l : List α) : Prop :=
  ∀ x ∈ l, ∀ y ∈ l, ∀ z ∈ l, cmp x y ≤ 0 → cmp y z ≤ 0 → cmp x z ≤ 0

theorem mem_insert_sorted {cmp : α → α → Int} {x a : α} {l : List α}
    (h : x ∈ insert_sorted cmp a l) : x = a ∨ x ∈ l := by
  have := (insert_sorted_perm cmp a l).mem_iff.1 h
  simpa using this

theorem insert_sorted_pairwise (cmp : α → α → Int)
    (hanti : ∀ x y : α, cmp x y = -cmp y x) (a : α) (l : List α)
    (htr : ∀ x ∈ a :: l, ∀ y ∈ a :: l, ∀ z ∈ a :: l,
      cmp x y ≤ 0 → cmp y z ≤ 0 → cmp x z ≤ 0)
    (hs : l.Pairwise (fun x y => cmp x y ≤ 0)) :
    (insert_sorted cmp a l).Pairwise (fun x y => cmp x y ≤ 0) := by
  induction l with
  | nil => simp [insert_sorted]
  | cons b t ih =>
    simp only [insert_sorted]
    by_cases hba : cmp b a < 0
    · rw [if_pos hba]
      rw [List.pairwise_cons]
      constructor
      · intro x hx
        rcases mem_insert_sorted hx with he | hm
        · subst he; omega
        · exact (List.pairwise_cons.1 hs).1 x hm
      · apply ih
        · intro x hx y hy z hz
          have sub : ∀ w, w ∈ a :: t → w ∈ a :: b :: t := by
            intro w hw
            rcases List.mem_cons.1 hw with he | hm
            · simp [he]
            · simp [hm]
          exact htr x (sub x hx) y (sub y hy) z (sub z hz)
        · exact (List.pairwise_cons.1 hs).2
    · rw [if_neg hba]
      have hab : cmp a b ≤ 0 := by have := hanti a b; omega
      rw [List.pairwise_cons]
      constructor
      · intro x hx
        rcases List.mem_cons.1 hx with he | hm
        · subst he; exact hab
        · have hbx : cmp b x ≤ 0 := (List.pairwise_cons.1 hs).1 x hm
          exact htr a (List.mem_cons_self a _) b
            (List.mem_cons_of_mem _ (List.mem_cons_self b t)) x
            (List.mem_cons_of_mem _ (List.mem_cons_of_mem _ hm)) hab hbx
      · exact hs

theorem mem_cons_sort {cmp : α → α → Int} {x a : α} {t : List α}
    (h : x ∈ a :: sort_by cmp t) : x ∈ a :: t := by
  rcases List.mem_cons.1 h with he | hm
  · simp [he]
  · exact List.mem_cons_of_mem _ (mem_sort_by cmp hm)

theorem sort_by_pairwise (cmp : α → α → Int)
    (hanti : ∀ x y : α, cmp x y = -cmp y x) (l : List α) (htr : LeTransOn cmp l) :
    (sort_by cmp l).Pairwise (fun x y => cmp x y ≤ 0) := by
  induction l with
  | nil => simp [sort_by]
  | cons a t ih =>
    simp only [sort_by]
    apply insert_sorted_pairwise cmp hanti
    · intro x hx y hy z hz
      exact htr x (mem_cons_sort hx) y (mem_cons_sort hy) z (mem_cons_sort hz)
    · apply ih
      intro x hx y hy z hz
      exact htr x (List.mem_cons_of_mem _ hx) y (List.mem_cons_of_mem _ hy) z
        (List.mem_cons_of_mem _ hz)

theorem eq_of_perm_pairwise (R : α → α → Prop) :
    ∀ (l₁ l₂ : List α), l₁.Perm l₂ → l₁.Pairwise R → l₂.Pairwise R →
      (∀ x ∈ l₁, ∀ y ∈ l₁, x ≠ y → ¬(R x y ∧ R y x)) → l₁ = l₂ := by
  intro l₁
  induction l₁ with
  | nil =>
    intro l₂ hp _ _ _
    exact hp.nil_eq
  | cons a t₁ ih =>
    intro l₂ hp h₁ h₂ hmut
    cases l₂ with
    | nil =>
      have := hp.symm.nil_eq
      simp at this
    | cons b t₂ =>
      have hab : a = b := by
        by_cases h : a = b
        · exact h
        · have ha2 : a ∈ b :: t₂ := hp.mem_iff.1 (List.mem_cons_self a t₁)
          have hb1 : b ∈ a :: t₁ := hp.symm.mem_iff.1 (List.mem_cons_self b t₂)
          have hRba : R b a := by
            rcases List.mem_cons.1 ha2 with he | hm
            · exact absurd he h
            · exact (List.pairwise_cons.1 h₂).1 a hm
          have hRab : R a b := by
            rcases List.mem_cons.1 hb1 with he | hm
            · exact absurd he.symm h
            · exact (List.pairwise_cons.1 h₁).1 b hm
          exact absurd (And.intro hRab hRba) (hmut a (List.mem_cons_self a t₁) b hb1 h)
      subst hab
      have hpt : t₁.Perm t₂ := hp.cons_inv
      have ht := ih t₂ hpt (List.pairwise_cons.1 h₁).2 (List.pairwise_cons.1 h₂).2
        (fun x hx y hy hxy =>
          hmut x (List.mem_cons_of_mem _ hx) y (List.mem_cons_of_mem _ hy) hxy)
      rw [ht]

/-- With no ties and transitivity among the listed elements, the stable
sort under the flipped comparator is the reverse of the stable sort
under the comparator itself.  This is the mechanism behind reverse-mode
sorting (`lambda xp, yp: _path_compare(yp, xp)`). -/
theorem sort_by_flip (cmp : α → α → Int) (hanti : ∀ x y : α, cmp x y = -cmp y x)
    (l : List α) (htr : LeTransOn cmp l)
    (hnt : l.Pairwise (fun x y => cmp x y ≠ 0)) :
    sort_by (fun x y => cmp y x) l = (sort_by cmp l).reverse := by
  apply eq_of_perm_pairwise (fun x y => cmp y x ≤ 0)
  · exact (sort_by_perm _ l).trans ((sort_by_perm cmp l).symm.trans
      (List.reverse_perm _).symm)
  · exact sort_by_pairwise (fun x y => cmp y x)
      (fun x y => by show cmp y x = -cmp x y; have := hanti y x; omega) l
      (fun x hx y hy z hz h1 h2 => htr z hz y hy x hx h2 h1)
  · rw [List.pairwise_reverse]
    exact sort_by_pairwise cmp hanti l htr
  · intro x hx y hy hxy hcon
    have hx' : x ∈ l := mem_sort_by _ hx
    have hy' : y ∈ l := mem_sort_by _ hy
    have hsym : Symmetric (fun a b : α => cmp a b ≠ 0) := by
      intro a b hab
      have := hanti a b
      omega
    have hne := List.Pairwise.forall hsym hnt hx' hy' hxy
    have := hanti x y
    omega

theorem walk_along_append (step : List String) (inc : Int) (l1 l2 : List String) :
    ∀ c, (walk_along (l1 ++ l2) step c inc).1
      = (walk_along l1 step c inc).1 ++ (walk_along l2 step (c + inc * l1.length) inc).1 := by
  induction l1 with
  | nil => intro c; simp [walk_along]
  | cons f rest ih =>
    intro c
    rw [List.cons_append, walk_along, walk_along]
    simp only
    rw [List.cons_append]
    rw [ih (c + inc)]
    have harith : c + inc + inc * (rest.length : Int)
        = c + inc * (((f :: rest).length : Nat) : Int) := by
      simp only [List.length_cons]
      push_cast
      ring
    rw [harith]

theorem walk_along_rev (step : List String) (files : List String) :
    ∀ c : Int, (walk_along files.reverse step (c + files.length - 1) (-1)).1
      = ((walk_along files step c 1).1).reverse := by
  induction files with
  | nil => intro c; simp [walk_along]
  | cons f rest ih =>
    intro c
    have h1 : c + ((f :: rest).length : Int) - 1 = (c + 1) + rest.length - 1 := by
      simp only [List.length_cons]; push_cast; ring
    rw [List.reverse_cons, walk_along_append, h1, ih (c + 1)]
    have h2 : (c + 1) + (rest.length : Int) - 1 + (-1) * rest.reverse.length = c := by
      simp only [List.length_reverse]; push_cast; ring
    rw [h2]
    simp [walk_along]

theorem walk_into_append (rev lex : Bool) (step : List String) (inc : Int)
    (l1 l2 : List (String × FTree)) :
    ∀ c, (walk_into rev lex (l1 ++ l2) step c inc).1
      = (walk_into rev lex l1 step c inc).1
        ++ (walk_into rev lex l2 step (c + inc * forestCount l1) inc).1 := by
  induction l1 with
  | nil =>
    intro c
    rw [List.nil_append, walk_into]
    simp [forestCount]
  | cons p rest ih =>
    intro c
    cases p with
    | mk nm sub =>
      rw [List.cons_append, walk_into, walk_into]
      simp only
      rw [ih ((dir_walk rev lex sub (step ++ [nm]) c inc).2), List.append_assoc,
        dir_walk_snd]
      have harith : c + inc * (fileCount sub : Int) + inc * (forestCount rest : Int)
          = c + inc * ((forestCount ((nm, sub) :: rest) : Nat) : Int) := by
        simp only [forestCount]
        push_cast
        ring
      rw [harith]

/-- A tree on which the active comparator behaves as a strict linear
order among siblings at every level: no two sibling directories and no
two sibling files compare as ties, and the non-strict order is
transitive on each sibling list.  Natural comparison can violate both
(equal digit vectors tie; mixed digit/digit-free names break
transitivity), which is what the reverse-mode claim needs excluded. -/
inductive Good (lex : Bool) : FTree → Prop where
  | node : ∀ (dirs : List (String × FTree)) (files : List String),
      LeTransOn (dirCmp false lex) dirs →
      dirs.Pairwise (fun p q => dirCmp false lex p q ≠ 0) →
      LeTransOn (fileCmp false lex) files →
      files.Pairwise (fun x y => fileCmp false lex x y ≠ 0) →
      (∀ p ∈ dirs, Good lex p.2) →
      Good lex (FTree.node dirs files)

theorem walk_into_reverse_of (lex : Bool) (ds : List (String × FTree))
    (ih : ∀ p ∈ ds, Good lex p.2 → ∀ (step : List String) (a : Int),
      (dir_walk true lex p.2 step (a + fileCount p.2 - 1) (-1)).1
        = ((dir_walk false lex p.2 step a 1).1).reverse)
    (hg : ∀ p ∈ ds, Good lex p.2) :
    ∀ (step : List String) (a : Int),
      (walk_into true lex ds.reverse step (a + forestCount ds - 1) (-1)).1
        = ((walk_into false lex ds step a 1).1).reverse := by
  induction ds with
  | nil =>
    intro step a
    rw [walk_into]
    rw [show (([] : List (String × FTree)).reverse) = ([] : List (String × FTree))
      from rfl, walk_into]
    simp
  | cons p rest ihr =>
    intro step a
    cases p with
    | mk nm sub =>
      rw [List.reverse_cons, walk_into_append, walk_into]
      simp only
      rw [walk_into]
      simp only [List.append_nil]
      have hfcrev : forestCount rest.reverse = forestCount rest :=
        forestCount_perm (List.reverse_perm rest)
      have h1 : a + (forestCount ((nm, sub) :: rest) : Int) - 1
          = (a + fileCount sub) + (forestCount rest : Int) - 1 := by
        simp only [forestCount]
        push_cast
        ring
      rw [h1, ihr (fun q hq s => ih q (List.mem_cons_of_mem _ hq) s)
        (fun q hq => hg q (List.mem_cons_of_mem _ hq)) step (a + fileCount sub)]
      have h2 : a + (fileCount sub : Int) + (forestCount rest : Int) - 1
          + (-1) * (forestCount rest.reverse : Int)
          = a + (fileCount sub : Int) - 1 := by
        rw [hfcrev]
        ring
      rw [h2, ih (nm, sub) (List.mem_cons_self (nm, sub) rest)
        (hg (nm, sub) (List.mem_cons_self (nm, sub) rest)) (step ++ [nm]) a]
      rw [walk_into]
      simp only
      rw [dir_walk_snd]
      simp only [one_mul]
      rw [List.reverse_append]

/-- With the comparator a strict linear order on every sibling list, the
reverse-mode walk starting at `a + N - 1` emits exactly the reverse of
the forward walk starting at `a`, item for item (indices included). -/
theorem dir_walk_reverse (lex : Bool) :
    ∀ t : FTree, Good lex t → ∀ (step : List String) (a : Int),
      (dir_walk true lex t step (a + fileCount t - 1) (-1)).1
        = ((dir_walk false lex t step a 1).1).reverse := by
  apply treeInduction (fun t => Good lex t → ∀ (step : List String) (a : Int),
    (dir_walk true lex t step (a + fileCount t - 1) (-1)).1
      = ((dir_walk false lex t step a 1).1).reverse)
  intro dirs files ih hg step a
  cases hg with
  | node _ _ htrD hntD htrF hntF hgch =>
    have hDflip : sort_by (dirCmp true lex) dirs
        = (sort_by (dirCmp false lex) dirs).reverse := by
      rw [dirCmp_true_flip]
      exact sort_by_flip _ (dirCmp_false_anti lex) dirs htrD hntD
    have hFflip : sort_by (fileCmp true lex) files
        = (sort_by (fileCmp false lex) files).reverse := by
      rw [fileCmp_true_flip]
      exact sort_by_flip _ (fileCmp_false_anti lex) files htrF hntF
    have hfc : forestCount (sort_by (dirCmp false lex) dirs) = forestCount dirs :=
      forestCount_perm (sort_by_perm _ dirs)
    have hlen : (sort_by (fileCmp false lex) files).length = files.length :=
      (sort_by_perm _ files).length_eq
    rw [dir_walk, dir_walk]
    simp only [reduceIte, Bool.false_eq_true, if_false]
    rw [List.reverse_append, hFflip, hDflip, walk_along_snd, walk_into_snd_all]
    have h1 : a + (fileCount (FTree.node dirs files) : Int) - 1
        = (a + (forestCount dirs : Int)) + ((sort_by (fileCmp false lex) files).length : Int)
          - 1 := by
      simp only [fileCount, hlen]
      push_cast
      ring
    rw [h1, walk_along_rev]
    have h2 : a + (forestCount dirs : Int) + ((sort_by (fileCmp false lex) files).length : Int)
        - 1 + (-1) * ((sort_by (fileCmp false lex) files).reverse.length : Int)
        = a + (forestCount (sort_by (dirCmp false lex) dirs) : Int) - 1 := by
      simp only [List.length_reverse, hfc]
      push_cast
      ring
    rw [h2]
    rw [walk_into_reverse_of lex (sort_by (dirCmp false lex) dirs)
      (fun q hq => ih q (mem_sort_by _ hq))
      (fun q hq => hgch q (mem_sort_by _ hq)) step a]
    have h3 : a + 1 * (forestCount (sort_by (dirCmp false lex) dirs) : Int)
        = a + (forestCount dirs : Int) := by
      rw [hfc]; ring
    rw [h3]

/-- Claim C2 (counterexample): reverse emission is NOT always the exact
reverse of forward emission.  With sibling files "1a.mp3" and "1b.mp3",
whose stems have equal digit vectors [1], the comparator ties; the
stable sort leaves the pair in directory order in both modes, so
forward emits 1a with index 1 then 1b with index 2, while reverse emits
1a with index 2 then 1b with index 1 — not the reverse, and the indices
assigned to each file differ between the two modes. -/
theorem C2_reverse_counterexample :
    albumWalk true false (FTree.node [] ["1a.mp3", "1b.mp3"])
      ≠ (albumWalk false false (FTree.node [] ["1a.mp3", "1b.mp3"])).reverse := by
  have hT : albumWalk true false (FTree.node [] ["1a.mp3", "1b.mp3"])
      = [(2, [], "1a.mp3"), (1, [], "1b.mp3")] := by
    rw [albumWalk]
    simp only [reduceIte]
    rw [dir_walk]
    simp only [reduceIte]
    rw [show sort_by (dirCmp true false) ([] : List (String × FTree)) = [] from rfl,
      walk_into]
    decide
  have hF : albumWalk false false (FTree.node [] ["1a.mp3", "1b.mp3"])
      = [(1, [], "1a.mp3"), (2, [], "1b.mp3")] := by
    rw [albumWalk]
    simp only [Bool.false_eq_true, if_false]
    rw [dir_walk]
    simp only [Bool.false_eq_true, if_false]
    rw [show sort_by (dirCmp false false) ([] : List (String × FTree)) = [] from rfl,
      walk_into]
    decide
  rw [hT, hF]
  decide

/-- Claim C2 (amended): a reverse-mode walk (counter started at N,
step -1) emits indices N, N-1, ..., 1 in emission order, and its
emission order — this level's files before its subdirectories, both
partitions sorted with the flipped comparator — is the spec-side
reverse visitation order; moreover, PROVIDED the active comparator
orders every sibling list strictly and transitively (no ties — e.g. no
two sibling files whose stems have equal digit vectors, no mixed
digit/digit-free sibling names breaking transitivity), the reverse
emission is the exact reverse of the forward emission, item for item,
so each file receives the same index in both modes. -/
theorem C2_reverse_walk (t : FTree) :
    (albumWalk true false t).map Prod.fst = idxList (fileCount t) (-1) (fileCount t)
    ∧ (albumWalk true false t).map Prod.snd = specOrder true false t []
    ∧ (Good false t → albumWalk true false t = (albumWalk false false t).reverse) := by
  refine ⟨?_, ?_, ?_⟩
  · rw [albumWalk]
    simp only [reduceIte]
    exact dir_walk_map_fst true false t [] (fileCount t) (-1)
  · rw [albumWalk]
    simp only [reduceIte]
    exact dir_walk_map_snd true false t [] (fileCount t) (-1)
  · intro hg
    rw [albumWalk, albumWalk]
    simp only [reduceIte, Bool.false_eq_true, if_false]
    have harith : (fileCount t : Int) = 1 + fileCount t - 1 := by ring
    rw [harith]
    exact dir_walk_reverse false t hg [] 1

/-- Witness for the amended C2: a two-directory, three-file tree with
strictly ordered sibling names; the reverse walk is the exact reverse
of the forward walk on it. -/
theorem C2_reverse_walk_witness :
    Good false (FTree.node
      [("d1", FTree.node [] ["b2.mp3"]), ("d2", FTree.node [] ["a10.mp3"])] ["z1.mp3"])
    ∧ albumWalk true false (FTree.node
      [("d1", FTree.node [] ["b2.mp3"]), ("d2", FTree.node [] ["a10.mp3"])] ["z1.mp3"])
      = (albumWalk false false (FTree.node
      [("d1", FTree.node [] ["b2.mp3"]), ("d2", FTree.node [] ["a10.mp3"])] ["z1.mp3"])).reverse := by
  have hleaf : ∀ f : String, Good false (FTree.node [] [f]) := by
    intro f
    refine Good.node [] [f] ?_ ?_ ?_ ?_ ?_
    · intro x hx
      exact absurd hx (List.not_mem_nil x)
    · exact List.Pairwise.nil
    · intro x hx y hy z hz
      simp only [List.mem_singleton] at hx hy hz
      subst hx; subst hy; subst hz
      intro h _
      exact h
    · exact List.pairwise_singleton _ _
    · intro p hp
      exact absurd hp (List.not_mem_nil p)
  have hg : Good false (FTree.node
      [("d1", FTree.node [] ["b2.mp3"]), ("d2", FTree.node [] ["a10.mp3"])] ["z1.mp3"]) := by
    refine Good.node _ _ ?_ ?_ ?_ ?_ ?_
    · intro x hx y hy z hz
      simp only [List.mem_cons, List.not_mem_nil, or_false] at hx hy hz
      rcases hx with rfl | rfl <;> rcases hy with rfl | rfl <;> rcases hz with rfl | rfl <;>
        decide
    · decide
    · intro x hx y hy z hz
      simp only [List.mem_singleton] at hx hy hz
      subst hx; subst hy; subst hz
      intro h _
      exact h
    · exact List.pairwise_singleton _ _
    · intro p hp
      simp only [List.mem_cons, List.not_mem_nil, or_false] at hp
      rcases hp with rfl | rfl
      · exact hleaf "b2.mp3"
      · exact hleaf "a10.mp3"
  exact ⟨hg, (C2_reverse_walk _).2.2 hg⟩

/-! ## Name decorator (shoot.py lines 146-170; run.py lines 186-210) -/

/-- `str.zfill` for an unsigned decimal string: left-pad with zeros to
width `w`. -/
def zfill (s : String) (w : Nat) : String :=
  String.mk (List.replicate (w - s.length) (Char.ofNat 48)) ++ s

/-- `_artist_part` (shoot.py line 146) / `_artist` (run.py line 186):
the artist text wrapped in the given pre/suffix when the artist option
is set to a nonempty string, else empty. -/
def artist_part (artist : Option String) (pre suf : String) : String :=
  match artist with
  | some a => if a = "" then "" else pre ++ a ++ suf
  | none => ""

/-- The option fields read by `_file_decorate` (shoot.py). -/
structure DecorArgs where
  strip_decorations : Bool
  tree_dst : Bool
  prepend_subdir_name : Bool
  unified_name : Option String
  artist : Option String

/-- `_file_decorate` (shoot.py lines 155-170): returns the file name
unchanged only when strip-decorations AND tree-destination are both
set; otherwise the zero-padded index prefix (padded to the digit count
of the file total), the optional bracketed subdirectory infix (flat
mode only), and either the unified name with optional artist and the
original extension, or the original file name. -/
def file_decorate (args : DecorArgs) (filesTotal : Nat) (i : Nat)
    (step_down : List String) (file : String) : String :=
  if args.strip_decorations && args.tree_dst then file
  else
    let pref := zfill (toString i) (toString filesTotal).length ++
      (if args.prepend_subdir_name && !args.tree_dst && !step_down.isEmpty
       then "-[" ++ String.intercalate "][" step_down ++ "]-"
       else "-")
    pref ++
      (match args.unified_name with
       | some u =>
         if u = "" then file
         else u ++ artist_part args.artist " - " "" ++ pySuffix file
       | none => file)

/-- The option fields read by `_decorate_file_name` (run.py). -/
structure RunDecorArgs where
  strip_decorations : Bool
  tree_dst : Bool
  prepend_subdir_name : Bool
  unified_name : Option String
  artist_tag : Option String

/-- `_decorate_file_name` (run.py lines 195-210): returns the file name
unchanged whenever strip-decorations is set; the subdirectory infix is
hyphen-joined, not bracketed. -/
def decorate_file_name (args : RunDecorArgs) (filesTotal : Nat) (i : Nat)
    (dst_step : List String) (file : String) : String :=
  if args.strip_decorations then file
  else
    let pref := zfill (toString i) (toString filesTotal).length ++
      (if args.prepend_subdir_name && !args.tree_dst && !dst_step.isEmpty
       then "-" ++ String.intercalate "-" dst_step ++ "-"
       else "-")
    pref ++
      (match args.unified_name with
       | some u =>
         if u = "" then file
         else u ++ artist_part args.artist_tag " - " "" ++ pySuffix file
       | none => file)

/-- Claim C8 (counterexample): with strip-decorations set but
tree-destination off, shoot.py's `_file_decorate` does NOT return the
original name — it still applies the numeric prefix (the repository's
own test expects exactly this). -/
theorem C8_strip_counterexample :
    file_decorate ⟨true, false, false, none, none⟩ 42 7 ["deeper"] "delta.m4a"
      = "07-delta.m4a"
    ∧ "07-delta.m4a" ≠ "delta.m4a" := by decide

/-- Claim C8 (amended): run.py's `_decorate_file_name` returns the
original file name unchanged whenever strip-decorations is set, for
every index, total, subdirectory step and remaining flags; shoot.py's
`_file_decorate` does so when strip-decorations and tree-destination
are both set (and otherwise still decorates). -/
theorem C8_strip_decorations :
    (∀ (args : RunDecorArgs) (filesTotal i : Nat) (dst_step : List String) (file : String),
      args.strip_decorations = true →
        decorate_file_name args filesTotal i dst_step file = file)
    ∧ (∀ (args : DecorArgs) (filesTotal i : Nat) (step_down : List String) (file : String),
      args.strip_decorations = true → args.tree_dst = true →
        file_decorate args filesTotal i step_down file = file) := by
  constructor
  · intro args N i ds f h
    simp [decorate_file_name, h]
  · intro args N i sd f h1 h2
    simp [file_decorate, h1, h2]

/-- Witness for the amended C8 at concrete inputs. -/
theorem C8_strip_decorations_witness :
    decorate_file_name ⟨true, false, true, some "u", some "a"⟩ 42 7 ["deeper"] "delta.m4a"
      = "delta.m4a"
    ∧ file_decorate ⟨true, true, true, some "u", some "a"⟩ 42 7 ["deeper"] "delta.m4a"
      = "delta.m4a" :=
  ⟨C8_strip_decorations.1 ⟨true, false, true, some "u", some "a"⟩ 42 7 ["deeper"]
      "delta.m4a" rfl,
    C8_strip_decorations.2 ⟨true, true, true, some "u", some "a"⟩ 42 7 ["deeper"]
      "delta.m4a" rfl rfl⟩

/-! ## Album gate (shoot.py lines 274-302) and the copy step
(shoot.py lines 392-424) -/

/-- The option fields read by the destination gate of `_album`. -/
structure GateArgs where
  drop_dst : Bool
  dry_run : Bool
  overwrite : Bool
  reverse : Bool

/-- Outcome of the destination gate: abort via `sys.exit(1)` before any
walk item is produced, or proceed, recording whether an existing
destination directory was removed first (`shutil.rmtree`) and whether a
fresh one was created (`mkdir`). -/
inductive GateResult where
  | abortNoFiles : GateResult
  | abortExists : GateResult
  | proceed : Bool → Bool → GateResult
deriving DecidableEq

/-- The gate of `_album` (shoot.py lines 280-301): no supported audio
files aborts; otherwise, unless drop-destination or dry-run is set, an
existing destination aborts without overwrite and is removed first with
it; a fresh directory is then created.  The `FileNotFoundError` retry
branch of `rmtree` (an external race) is not modelled. -/
def album_gate (args : GateArgs) (filesTotal : Nat) (dstExists : Bool) : GateResult :=
  if filesTotal < 1 then GateResult.abortNoFiles
  else if !args.drop_dst && !args.dry_run then
    if dstExists then
      if args.overwrite then GateResult.proceed true true
      else GateResult.abortExists
    else GateResult.proceed false true
  else GateResult.proceed false false

/-- `_album` (shoot.py lines 274-302): the gate followed by the
ammo-belt walk; an abort produces no walk items, so the copy loop of
`_album_copy` never runs and no file is copied. -/
def album (args : GateArgs) (t : FTree) (dstExists : Bool) : Option (List Item) :=
  match album_gate args (fileCount t) dstExists with
  | GateResult.abortNoFiles => none
  | GateResult.abortExists => none
  | GateResult.proceed _ _ => some (albumWalk args.reverse false t)

/-- Claim C9: if the destination directory exists and overwrite is not
set (and neither drop-destination nor dry-run is), the run aborts
before any file is copied and the destination is untouched (no removal
recorded); with overwrite set the existing destination is removed first
and a fresh one created — never silently merged. -/
theorem C9_destination_gate :
    (∀ (args : GateArgs) (t : FTree),
      args.overwrite = false → args.drop_dst = false → args.dry_run = false →
      1 ≤ fileCount t →
      album_gate args (fileCount t) true = GateResult.abortExists
        ∧ album args t true = none)
    ∧ (∀ (args : GateArgs) (N : Nat),
      args.overwrite = true → args.drop_dst = false → args.dry_run = false →
      1 ≤ N → album_gate args N true = GateResult.proceed true true) := by
  constructor
  · intro args t h1 h2 h3 h4
    have hg : album_gate args (fileCount t) true = GateResult.abortExists := by
      simp [album_gate, h1, h2, h3, Nat.not_lt.mpr h4]
    exact ⟨hg, by simp [album, hg]⟩
  · intro args N h1 h2 h3 h4
    simp [album_gate, h1, h2, h3, Nat.not_lt.mpr h4]

/-- Witness for C9 at concrete inputs. -/
theorem C9_destination_gate_witness :
    album ⟨false, false, false, false⟩ (FTree.node [] ["a.mp3"]) true = none
    ∧ album_gate ⟨false, false, true, false⟩ 5 true = GateResult.proceed true true :=
  ⟨(C9_destination_gate.1 ⟨false, false, false, false⟩ (FTree.node [] ["a.mp3"])
      rfl rfl rfl (by decide)).2,
    C9_destination_gate.2 ⟨false, false, true, false⟩ 5 rfl rfl rfl (by decide)⟩

/-- Filesystem and log state threaded through the copy loop:
destination files with contents, the `_SHORT_LOG` lines, and the tag
writes performed. -/
structure CopyState where
  fs : List (String × String)
  shortLog : List String
  tagWrites : List (String × Int)
deriving DecidableEq

/-- Association lookup, modelling `dst.is_file()` and the destination
contents. -/
def fsLookup : List (String × String) → String → Option String
  | [], _ => none
  | (p, v) :: rest, q => if p = q then some v else fsLookup rest q

/-- The `_SHORT_LOG` line appended when the destination already exists
(shoot.py lines 406-408). -/
def alreadyCopiedNote (dstName : String) : String :=
  "File \"" ++ dstName ++ "\" already copied. Review your options."

/-- The per-item copy step `file_copy` of `_album_copy` (shoot.py lines
392-424), restricted to its filesystem effects.  `dst` is the computed
destination path, `dstName` its final component (used in the log line),
`content` the source bytes, `i` the item's index.  In dry-run mode
nothing is touched; otherwise, when the destination already exists as a
file the item is skipped with a short-log note; otherwise the file is
copied via the temp-file route and its tags written. -/
def file_copy (dryRun : Bool) (dst dstName content : String) (i : Int)
    (st : CopyState) : CopyState :=
  if dryRun then st
  else
    match fsLookup st.fs dst with
    | some _ =>
      CopyState.mk st.fs (st.shortLog ++ [alreadyCopiedNote dstName]) st.tagWrites
    | none =>
      CopyState.mk (st.fs ++ [(dst, content)]) st.shortLog (st.tagWrites ++ [(dst, i)])

/-- Claim C10: outside dry-run mode, an item whose destination path
already exists as a file is skipped: the filesystem is unchanged (the
existing destination keeps its contents), no tag write happens, and
exactly one note is appended to the short log. -/
theorem C10_skip_existing_destination :
    ∀ (dst dstName content v : String) (i : Int) (st : CopyState),
      fsLookup st.fs dst = some v →
      (file_copy false dst dstName content i st).fs = st.fs
      ∧ (file_copy false dst dstName content i st).tagWrites = st.tagWrites
      ∧ (file_copy false dst dstName content i st).shortLog
          = st.shortLog ++ [alreadyCopiedNote dstName]
      ∧ fsLookup (file_copy false dst dstName content i st).fs dst = some v := by
  intro dst dstName content v i st h
  simp [file_copy, h]

/-- Witness for C10 at a concrete state. -/
theorem C10_skip_existing_destination_witness :
    (file_copy false "dst/01-x.mp3" "01-x.mp3" "new" 1
        (CopyState.mk [("dst/01-x.mp3", "old")] [] [])).fs
      = [("dst/01-x.mp3", "old")]
    ∧ (file_copy false "dst/01-x.mp3" "01-x.mp3" "new" 1
        (CopyState.mk [("dst/01-x.mp3", "old")] [] [])).tagWrites = []
    ∧ (file_copy false "dst/01-x.mp3" "01-x.mp3" "new" 1
        (CopyState.mk [("dst/01-x.mp3", "old")] [] [])).shortLog
      = [alreadyCopiedNote "01-x.mp3"] := by
  have h := C10_skip_existing_destination "dst/01-x.mp3" "01-x.mp3" "new" "old" 1
    (CopyState.mk [("dst/01-x.mp3", "old")] [] []) (by decide)
  exact ⟨h.1, h.2.1, by simpa using h.2.2.1⟩

end Damastes
